import Mathlib

/-!
Verification of the explosion-profiling pipeline
(`example_explode_analysis.py` / `profile_exploded.py`).

The Python sources are shallowly embedded below: the local Levenshtein and
Jaro-Winkler implementations, the date comparison, reference selection,
the per-field explosion classifier with its key-field fallback, the
metadata builders of both entry points, and the Cartesian-product
combination generator.  Floating point arithmetic is modelled by `ℚ`
(all constants involved, 0.1 and 0.88, are exact decimals) and pandas
tables by lists of records.
-/

namespace Explosion

/-- The fixed field set of the pipeline (the columns of the data frame,
in data-frame order, minus the identifier column). -/
inductive Fld
  | first_name | last_name | sex | dob | address | postcode | telephone | email
deriving DecidableEq, Repr

/-- The column name of a field. -/
def Fld.name : Fld → String
  | .first_name => "first_name"
  | .last_name => "last_name"
  | .sex => "sex"
  | .dob => "dob"
  | .address => "address"
  | .postcode => "postcode"
  | .telephone => "telephone"
  | .email => "email"

/-- All configured fields, in data-frame column order (the iteration order
of `reference_by_id` in the source). -/
def ALL_FIELDS : List Fld :=
  [.first_name, .last_name, .sex, .dob, .address, .postcode, .telephone, .email]

/-- Membership test for the key-field subset
`('first_name', 'last_name', 'postcode')` used by the fallback rule. -/
def Fld.is_key : Fld → Bool
  | .first_name => true
  | .last_name => true
  | .postcode => true
  | _ => false

/-- Python string comparison (lexicographic by code point), used to embed
`sorted(all_fields)`. -/
def strLe : List Char → List Char → Bool
  | [], _ => true
  | _ :: _, [] => false
  | a :: as, b :: bs => if a = b then strLe as bs else decide (a.val ≤ b.val)

/-- The configured fields sorted lexically by name:
`sorted(all_fields)` in the source. -/
def sorted_fields : List Fld :=
  List.insertionSort (fun f g : Fld => strLe f.name.data g.name.data) ALL_FIELDS

/-- One observation row: an identifier, a row timestamp (used only by the
`profile_exploded.py` reference selector) and the field values. -/
structure Row where
  id : Nat
  ts : Nat
  get : Fld → String

/-- The identifier group of `i`: the rows carrying identifier `i`, in
arrival order (`df.groupby` preserves intra-group order). -/
def group (recs : List Row) (i : Nat) : List Row :=
  recs.filter (fun r => r.id = i)

/-- Helper for `uniq`: drop the values already seen, keeping
first occurrences. -/
def uniqAux {α : Type} [DecidableEq α] : List α → List α → List α
  | [], _ => []
  | x :: xs, seen => if x ∈ seen then uniqAux xs seen else x :: uniqAux xs (x :: seen)

/-- Distinct values of a list in first-occurrence order
(pandas `Series.unique` / iteration order of `Counter`). -/
def uniq {α : Type} [DecidableEq α] (l : List α) : List α := uniqAux l []

/-- `collections.Counter` of a list of values: each distinct value in
first-occurrence order, paired with its number of occurrences. -/
def counter (l : List String) : List (String × Nat) :=
  (uniq l).map (fun v => (v, l.count v))

/-! ### Levenshtein distance, as implemented in `example_explode_analysis.py`

The source computes the classical two-row dynamic program after swapping
the arguments so that the outer loop runs over the longer string. -/

/-- Inner loop of the DP: one row update.  `prev` walks the previous row as
overlapping pairs `prev[j-1], prev[j]`; `lastC` is `curr[j-1]`. -/
def levInner (ca : Char) : List Char → List Nat → Nat → List Nat
  | [], _, _ => []
  | _ :: _, [], _ => []
  | _ :: _, [_], _ => []
  | cb :: bs, p0 :: p1 :: ps, lastC =>
    let c := min (p1 + 1) (min (lastC + 1) (p0 + (if ca = cb then 0 else 1)))
    c :: levInner ca bs (p1 :: ps) c

/-- Outer loop of the DP over the characters of `a` (with 1-based row
index `i`, as in `enumerate(a, 1)`). -/
def levOuter (b : List Char) : List Char → Nat → List Nat → List Nat
  | [], _, prev => prev
  | ca :: as, i, prev => levOuter b as (i + 1) (i :: levInner ca b prev i)

/-- The DP core: initial row `range(len(b)+1)`, then one update per
character of `a`; the result is `prev[-1]`. -/
def levCore (a b : List Char) : Nat :=
  (levOuter b a 1 (List.range (b.length + 1))).getLastD 0

/-- `levenshtein` from `example_explode_analysis.py`: swap so the first
argument is the longer string, then run the row DP. -/
def levenshtein (sa sb : String) : Nat :=
  let a := sa.data
  let b := sb.data
  if a.length < b.length then levCore b a else levCore a b

/-- Reference recursion for the edit distance (unit-cost insert, delete,
substitute), peeling characters from the front.  The row DP is proved
equal to `levR` on the reversed strings. -/
def levR : List Char → List Char → Nat
  | [], ys => ys.length
  | _ :: xs, [] => xs.length + 1
  | x :: xs, y :: ys =>
    min (levR xs (y :: ys) + 1)
      (min (levR (x :: xs) ys + 1) (levR xs ys + (if x = y then 0 else 1)))
termination_by xs ys => xs.length + ys.length

/-- Edit scripts as an alignment relation: `EditSteps n xs ys` holds when
`xs` can be rewritten to `ys` by an alignment of cost `n` (matches are
free; substitutions, deletions and insertions cost 1). -/
inductive EditSteps : Nat → List Char → List Char → Prop
  | nil : EditSteps 0 [] []
  | keep {n xs ys} (x : Char) : EditSteps n xs ys → EditSteps n (x :: xs) (x :: ys)
  | subst {n xs ys} (x y : Char) : EditSteps n xs ys → EditSteps (n + 1) (x :: xs) (y :: ys)
  | del {n xs ys} (x : Char) : EditSteps n xs ys → EditSteps (n + 1) (x :: xs) ys
  | ins {n xs ys} (y : Char) : EditSteps n xs ys → EditSteps (n + 1) xs (y :: ys)

/-- The abstract contents of a DP row while the outer loop has consumed
the (reversed) prefix `xs` of `a` and the inner loop still has to consume
`v`, the consumed prefix of `b` being reversed in `r`: the distances of
`xs` to the successive extensions of `r` by `v`'s characters. -/
def rowAux (xs : List Char) : List Char → List Char → List Nat
  | r, [] => [levR xs r]
  | r, cb :: v => levR xs r :: rowAux xs (cb :: r) v

/-! ### Jaro-Winkler similarity, as implemented in `example_explode_analysis.py`

`match_dist = max(len1, len2) // 2 - 1` (possibly `-1`, giving empty
windows), greedy left-to-right matching within the window, transposition
count = half the number of mismatched aligned matched-character pairs,
then the Winkler boost with the shared leading run capped at 4 and
scaling factor `p = 0.1`. -/

/-- `max(len1, len2) // 2 - 1`, in integers (it can be `-1`). -/
def matchDist (l1 l2 : Nat) : Int := ((max l1 l2 : Nat) : Int) / 2 - 1

/-- `for j in range(lo, lo+cnt): if not s2m[j] and s2[j] == c: return j`. -/
def findJ (s2 : List Char) (s2m : List Bool) (c : Char) (lo cnt : Nat) : Option Nat :=
  (List.range' lo cnt).find? (fun j => !(s2m.getD j true) && decide (s2.get? j = some c))

/-- The greedy matching loop over the characters of `s1` (index `i`),
returning the match flags of `s1` and the final match flags of `s2`. -/
def jwLoop (s2 : List Char) (d : Int) : List Char → Nat → List Bool → List Bool × List Bool
  | [], _, s2m => ([], s2m)
  | c :: rest, i, s2m =>
    match findJ s2 s2m c ((max 0 ((i : Int) - d)).toNat)
        ((min ((i : Int) + d + 1) (s2.length : Int)).toNat - (max 0 ((i : Int) - d)).toNat) with
    | some j =>
      (true :: (jwLoop s2 d rest (i + 1) (s2m.set j true)).1,
        (jwLoop s2 d rest (i + 1) (s2m.set j true)).2)
    | none =>
      (false :: (jwLoop s2 d rest (i + 1) s2m).1, (jwLoop s2 d rest (i + 1) s2m).2)

/-- Match flags (`s1m`, final `s2m`) for a pair of strings. -/
def jw_flags (s1 s2 : String) : List Bool × List Bool :=
  jwLoop s2.data (matchDist s1.data.length s2.data.length) s1.data 0
    (List.replicate s2.data.length false)

/-- The number of matched characters. -/
def jw_matches (s1 s2 : String) : Nat := (jw_flags s1 s2).1.count true

/-- The matched characters of `s`, in order (`[s[i] for i in ... if m[i]]`). -/
def matchedChars (s : List Char) (m : List Bool) : List Char :=
  ((s.zip m).filter (fun q => q.2)).map Prod.fst

/-- `sum(1 for a, b in zip(s1r, s2r) if a != b)`: the number of mismatched
aligned matched-character pairs (twice the transposition count). -/
def jw_trans_num (s1 s2 : String) : Nat :=
  ((matchedChars s1.data (jw_flags s1 s2).1).zip
      (matchedChars s2.data (jw_flags s1 s2).2)).countP (fun q => q.1 != q.2)

/-- The Jaro score
`(matches/len1 + matches/len2 + (matches - trans)/matches) / 3`
with `trans = jw_trans_num / 2`. -/
def jaro_score (s1 s2 : String) : ℚ :=
  let m : ℚ := jw_matches s1 s2
  (m / s1.data.length + m / s2.data.length
    + (m - (jw_trans_num s1 s2 : ℚ) / 2) / m) / 3

/-- Length of the shared leading character run of two strings. -/
def common_pre : List Char → List Char → Nat
  | x :: xs, y :: ys => if x = y then common_pre xs ys + 1 else 0
  | _, _ => 0

/-- `jaro_winkler` from `example_explode_analysis.py`: `1.0` on equal
strings, `0.0` when nothing matches, otherwise the Jaro score plus the
Winkler prefix boost (shared leading run capped at 4, factor `p`). -/
def jaro_winkler (s1 s2 : String) (p : ℚ := 1/10) : ℚ :=
  if s1 = s2 then 1
  else if jw_matches s1 s2 = 0 then 0
  else
    let j := jaro_score s1 s2
    j + (min (common_pre s1.data s2.data) 4 : ℚ) * p * (1 - j)

/-! ### Dates -/

/-- `mismatch_positions` from the sources:
`[i for i, (ca, cb) in enumerate(zip(a, b)) if ca != cb]`. -/
def mismatch_positions (a b : String) : List Nat :=
  ((List.zip a.data b.data).enum.filterMap
    (fun q => if q.2.1 ≠ q.2.2 then some q.1 else none))

/-- `date_exploded` from the sources, parameterised by the external date
parser (`dateutil.parser.parse(..., dayfirst=True)`), which returns
`none` where the library raises: exploded iff the two parses disagree,
and always exploded when either input fails to parse. -/
def date_exploded (parse : String → Option Nat) (ref var : String) : Bool :=
  match parse ref, parse var with
  | some d1, some d2 => d1 ≠ d2
  | _, _ => true

/-- Split a string into its maximal digit runs, as numbers paired with
their digit counts. -/
def digitRuns : List Char → List (Nat × Nat)
  | [] => []
  | c :: cs =>
    let rest := digitRuns cs
    if c.isDigit then
      match cs with
      | c2 :: _ =>
        if c2.isDigit then
          match rest with
          | (v, k) :: t => ((c.toNat - 48) * 10 ^ k + v, k + 1) :: t
          | [] => [(c.toNat - 48, 1)]
        else (c.toNat - 48, 1) :: rest
      | [] => [(c.toNat - 48, 1)]
    else rest

/-- Modelled from the spec: the external day-first-preferring date parser
(`dateutil.parser.parse` with `dayfirst=True`) is a collaborator outside
`src/`; this model covers the formats exercised by the repository
(`YYYY-MM-DD`, `YYYY/MM/DD`, `DD-MM-YYYY`, `YYYYMMDD`): a leading
four-digit group is a year followed by month and day, otherwise the
three groups are read day-first; an eight-digit run is `YYYYMMDD`;
anything else fails.  A date is encoded as `y * 10000 + m * 100 + d`. -/
def dayfirst_parse (s : String) : Option Nat :=
  let mk : Nat → Nat → Nat → Option Nat := fun y m d =>
    if 1 ≤ m ∧ m ≤ 12 ∧ 1 ≤ d ∧ d ≤ 31 then some (y * 10000 + m * 100 + d) else none
  match digitRuns s.data with
  | [(v, 8)] => mk (v / 10000) (v / 100 % 100) (v % 100)
  | [(a, ka), (b, _), (c, kc)] =>
    if ka = 4 then mk a b c
    else if kc = 4 then mk c b a
    else none
  | _ => none

/-! ### Reference selection -/

/-- `reference_by_id` from `example_explode_analysis.py`: per identifier
and field, the value of the last row of the group in arrival/row order
(`groupby('id')[fld].agg(lambda s: s.iloc[-1])`). -/
def reference_by_id (recs : List Row) (f : Fld) (i : Nat) : String :=
  (((group recs i).map (fun r => r.get f)).getLastD "")

/-- Timestamp order on rows, used by `sort_values(ts_col)`. -/
def tsLe (a b : Row) : Prop := a.ts ≤ b.ts

instance : DecidableRel tsLe := fun a b => Nat.decLe a.ts b.ts

instance : IsTotal Row tsLe := ⟨fun a b => Nat.le_total a.ts b.ts⟩

instance : IsTrans Row tsLe := ⟨fun _ _ _ h1 h2 => Nat.le_trans h1 h2⟩

/-- `get_references` from `profile_exploded.py`: sort the whole table by
ascending timestamp (stably), group by identifier (which preserves the
sorted order inside each group) and keep each group's last row. -/
def get_references (recs : List Row) (i : Nat) (f : Fld) : String :=
  ((((List.insertionSort tsLe recs).filter (fun r => r.id = i)).map
    (fun r => r.get f)).getLastD "")

/-! ### Explosion classification (`example_explode_analysis.py`, loop 2) -/

/-- The distinct variant values for `(identifier, field)`, excluding the
reference: `group[fld][group[fld] != ref_val].unique()`. -/
def variants (recs : List Row) (i : Nat) (f : Fld) : List String :=
  uniq (((group recs i).map (fun r => r.get f)).filter
    (fun v => v ≠ reference_by_id recs f i))

/-- The per-field explosion test applied to a variant, exactly as branched
in the classifier loop: names by Jaro-Winkler below 0.88, `dob` by date
comparison, `postcode` by positive Levenshtein distance, every other
field unconditionally. -/
def explode_test (parse : String → Option Nat) (f : Fld) (ref var : String) : Bool :=
  match f with
  | .first_name => decide (jaro_winkler ref var < 88/100)
  | .last_name => decide (jaro_winkler ref var < 88/100)
  | .dob => date_exploded parse ref var
  | .postcode => decide (0 < levenshtein ref var)
  | _ => true

/-- `should_explode` from `profile_exploded.py`: identical tests, behind a
defensive `var == ref` short-circuit. -/
def should_explode (parse : String → Option Nat) (f : Fld) (ref var : String) : Bool :=
  if var = ref then false else explode_test parse f ref var

/-- The variants of `(identifier, field)` classified as explosions, in
order. -/
def classified (recs : List Row) (parse : String → Option Nat) (i : Nat) (f : Fld) :
    List String :=
  (variants recs i f).filter (explode_test parse f (reference_by_id recs f i))

/-- The `(field, value)` entries the classifier loop appends for one field
of one identifier: every exploding variant, then the fallback entry
`(fld, ref_val)` when the field is a key field and nothing exploded. -/
def field_entries (recs : List Row) (parse : String → Option Nat) (i : Nat) (f : Fld) :
    List String :=
  classified recs parse i f ++
    (if f.is_key ∧ classified recs parse i f = [] then [reference_by_id recs f i] else [])

/-- `explosions_by_id[rid]`: the ordered `(field, value)` explosion list of
one identifier, fields in `reference_by_id` iteration order. -/
def explosions_by_id (recs : List Row) (parse : String → Option Nat) (i : Nat) :
    List (Fld × String) :=
  ALL_FIELDS.flatMap (fun f => (field_entries recs parse i f).map (fun v => (f, v)))

/-! ### Metadata builders -/

/-- The per-variant metric dictionary (`info`), shared by both metadata
builders: frequency always; edit distance, low similarity and first-4
mismatch for name fields; `exploded` for `dob`; edit distance for
`postcode`. -/
structure VarInfo where
  frequency : Nat
  edit_distance : Option Nat := none
  low_similarity : Option Bool := none
  mismatch_first4 : Option Bool := none
  exploded : Option Bool := none
deriving DecidableEq, Repr

/-- Build the `info` dictionary for one variant against its reference. -/
def infoFor (parse : String → Option Nat) (f : Fld) (ref v : String) (count : Nat) :
    VarInfo :=
  match f with
  | .first_name =>
    { frequency := count, edit_distance := some (levenshtein ref v),
      low_similarity := some (decide (jaro_winkler ref v < 88/100)),
      mismatch_first4 := some (decide (∃ q ∈ mismatch_positions ref v, q < 4)) }
  | .last_name =>
    { frequency := count, edit_distance := some (levenshtein ref v),
      low_similarity := some (decide (jaro_winkler ref v < 88/100)),
      mismatch_first4 := some (decide (∃ q ∈ mismatch_positions ref v, q < 4)) }
  | .dob => { frequency := count, exploded := some (date_exploded parse ref v) }
  | .postcode => { frequency := count, edit_distance := some (levenshtein ref v) }
  | _ => { frequency := count }

/-- The identifiers of the table, distinct and ascending (the key order of
`df.groupby('id')` and of `reference_by_id[fld]`). -/
def idsSorted (recs : List Row) : List Nat :=
  List.insertionSort (fun a b => a ≤ b) (uniq (recs.map (fun r => r.id)))

/-- The non-reference occurrences of field `f` for identifier `i`
(`sub[fld][sub[fld] != ref_val]`). -/
def occurrences (recs : List Row) (i : Nat) (f : Fld) : List String :=
  ((group recs i).map (fun r => r.get f)).filter (fun v => v ≠ reference_by_id recs f i)

/-- The variants dictionary one identifier contributes to the example
metadata: `Counter` of its non-reference occurrences, with metrics. -/
def var_meta (recs : List Row) (parse : String → Option Nat) (i : Nat) (f : Fld) :
    List (String × VarInfo) :=
  (counter (occurrences recs i f)).map
    (fun q => (q.1, infoFor parse f (reference_by_id recs f i) q.1 q.2))

/-- `metadata[fld][ref_val]` as built by `example_explode_analysis.py`:
the loop assigns `metadata[fld][ref_val] = ...` once per identifier (in
ascending identifier order), so for a shared reference value only the
last identifier's dictionary survives. -/
def metadata (recs : List Row) (parse : String → Option Nat) (f : Fld) (r : String) :
    Option (List (String × VarInfo)) :=
  match ((idsSorted recs).filter (fun i => reference_by_id recs f i = r)).getLast? with
  | some i => some (var_meta recs parse i f)
  | none => none

/-- `build_metadata` from `profile_exploded.py`, for field `f` and
reference value `r`: all identifiers whose reference equals `r`
contribute their distinct non-reference values; `Counter(subs['variant'])`
then counts table rows, i.e. how many identifiers carry each variant. -/
def build_metadata (recs : List Row) (parse : String → Option Nat) (f : Fld) (r : String) :
    List (String × VarInfo) :=
  (counter (((idsSorted recs).filter (fun i => get_references recs i f = r)).flatMap
      (fun i => (uniq ((group recs i).map (fun q => q.get f))).filter (fun v => v ≠ r)))).map
    (fun q => (q.1, infoFor parse f r q.1 q.2))

/-! ### Combination generator (`example_explode_analysis.py`, part 3) -/

/-- The grouped exploded variants of `(identifier, field)` as read back
from `df_long`: the values of that field's entries, deduplicated
(`groupby(["id", "field"])["variant"].unique()`). -/
def grouped_variants (recs : List Row) (parse : String → Option Nat) (i : Nat) (f : Fld) :
    List String :=
  uniq ((explosions_by_id recs parse i).filterMap
    (fun q => if q.1 = f then some q.2 else none))

/-- The per-field value lists fed to the Cartesian product: the exploded
variants when present, else the reference singleton. -/
def variant_lists (recs : List Row) (parse : String → Option Nat) (i : Nat) :
    List (List String) :=
  ALL_FIELDS.map (fun f =>
    let e := grouped_variants recs parse i f
    if e ≠ [] then e else [reference_by_id recs f i])

/-- `itertools.product(*variant_lists)`: leftmost list varies slowest. -/
def cartProd : List (List String) → List (List String)
  | [] => [[]]
  | l :: ls => l.flatMap (fun x => (cartProd ls).map (fun c => x :: c))

/-- Value of a combination at a field, via `dict(zip(all_fields, combo))`. -/
def comboGet (combo : List String) (f : Fld) : String :=
  match (ALL_FIELDS.zip combo).find? (fun q => q.1 = f) with
  | some q => q.2
  | none => ""

/-- The final wide table rows for one identifier: one row per combination,
columns reordered to `["id"] + sorted(all_fields)`; each row is the list
of `(column name, value)` cells. -/
def df_wide_rows (recs : List Row) (parse : String → Option Nat) (i : Nat) :
    List (List (String × String)) :=
  (cartProd (variant_lists recs parse i)).map (fun combo =>
    ("id", toString i) :: sorted_fields.map (fun f => (f.name, comboGet combo f)))

/-! ### Concrete data

`df` is the fake data frame hard-coded in `example_explode_analysis.py`
(after lower-casing), with the row position as timestamp.  The smaller
tables below isolate single behaviours. -/

/-- Row 0..5 of the source's fake data frame, lower-cased. -/
def df : List Row :=
  [⟨1, 0, fun f => match f with
    | .first_name => "john" | .last_name => "smith" | .sex => "m"
    | .dob => "1985-06-15" | .address => "123 main st" | .postcode => "sw1a1aa"
    | .telephone => "02079460000" | .email => "john.smith@exmaple.com"⟩,
   ⟨1, 1, fun f => match f with
    | .first_name => "jon" | .last_name => "smoth" | .sex => "male"
    | .dob => "15-06-1985" | .address => "123 main street" | .postcode => "sw1a 1aa"
    | .telephone => "+442079460000" | .email => "john.smith@example.co.uk"⟩,
   ⟨1, 2, fun f => match f with
    | .first_name => "jahn" | .last_name => "smyth" | .sex => "m"
    | .dob => "1985/06/15" | .address => "124 main st" | .postcode => "sw1a1a"
    | .telephone => "0207946000" | .email => "johnsmith@example.com"⟩,
   ⟨2, 3, fun f => match f with
    | .first_name => "jhon" | .last_name => "smih" | .sex => "f"
    | .dob => "1985-06-16" | .address => "123 main st." | .postcode => "sw1a1ab"
    | .telephone => "2079460000" | .email => "john.smit@example.com"⟩,
   ⟨2, 4, fun f => match f with
    | .first_name => "johm" | .last_name => "smiht" | .sex => "f"
    | .dob => "1985-6-15" | .address => "123 main st apt1" | .postcode => "sw1a1ba"
    | .telephone => "+44 20 79460000" | .email => "john.smith@example.org"⟩,
   ⟨2, 5, fun f => match f with
    | .first_name => "johnny" | .last_name => "smith" | .sex => "female"
    | .dob => "19850615" | .address => "123 main st, apt 1" | .postcode => "sw1a1aa"
    | .telephone => "0207946000" | .email => "john.smith@example.com"⟩]

/-- The spec's fallback scenario: one identifier whose postcode never
varies (all other fields constant as well). -/
def ceFallback : List Row :=
  [⟨2, 0, fun f => match f with | .postcode => "sw1a1aa" | _ => "x"⟩,
   ⟨2, 1, fun f => match f with | .postcode => "sw1a1aa" | _ => "x"⟩,
   ⟨2, 2, fun f => match f with | .postcode => "sw1a1aa" | _ => "x"⟩]

/-- A two-row group with one genuine postcode variant. -/
def cePost : List Row :=
  [⟨1, 0, fun f => match f with | .postcode => "ab" | _ => "x"⟩,
   ⟨1, 1, fun f => match f with | .postcode => "ac" | _ => "x"⟩]

/-! ## Helper lemmas -/

theorem mem_of_mem_uniqAux {α : Type} [DecidableEq α] :
    ∀ (l seen : List α) (v : α), v ∈ uniqAux l seen → v ∈ l := by
  intro l
  induction l with
  | nil => intro seen v hv; simp [uniqAux] at hv
  | cons x xs ih =>
    intro seen v hv
    rw [uniqAux] at hv
    by_cases hx : x ∈ seen
    · rw [if_pos hx] at hv
      exact List.mem_cons_of_mem _ (ih seen v hv)
    · rw [if_neg hx] at hv
      rcases List.mem_cons.mp hv with h | h
      · exact h ▸ List.mem_cons_self _ _
      · exact List.mem_cons_of_mem _ (ih _ v h)

theorem mem_of_mem_uniq {α : Type} [DecidableEq α] (l : List α) (v : α)
    (hv : v ∈ uniq l) : v ∈ l :=
  mem_of_mem_uniqAux l [] v hv

theorem uniqAux_not_mem_seen {α : Type} [DecidableEq α] :
    ∀ (l seen : List α) (v : α), v ∈ uniqAux l seen → v ∉ seen := by
  intro l
  induction l with
  | nil => intro seen v hv; simp [uniqAux] at hv
  | cons x xs ih =>
    intro seen v hv
    rw [uniqAux] at hv
    by_cases hx : x ∈ seen
    · rw [if_pos hx] at hv
      exact ih seen v hv
    · rw [if_neg hx] at hv
      rcases List.mem_cons.mp hv with h | h
      · exact h ▸ hx
      · intro hs
        exact ih _ v h (List.mem_cons_of_mem _ hs)

theorem uniqAux_nodup {α : Type} [DecidableEq α] :
    ∀ (l seen : List α), (uniqAux l seen).Nodup := by
  intro l
  induction l with
  | nil => intro seen; simp [uniqAux]
  | cons x xs ih =>
    intro seen
    rw [uniqAux]
    by_cases hx : x ∈ seen
    · rw [if_pos hx]; exact ih seen
    · rw [if_neg hx]
      refine List.nodup_cons.mpr ⟨fun hmem => ?_, ih _⟩
      exact uniqAux_not_mem_seen _ _ _ hmem (List.mem_cons_self _ _)

theorem uniq_nodup {α : Type} [DecidableEq α] (l : List α) : (uniq l).Nodup :=
  uniqAux_nodup l []

theorem uniqAux_eq_self {α : Type} [DecidableEq α] :
    ∀ (l seen : List α), l.Nodup → (∀ a ∈ l, a ∉ seen) → uniqAux l seen = l := by
  intro l
  induction l with
  | nil => intro seen _ _; rfl
  | cons x xs ih =>
    intro seen hn hs
    rcases List.nodup_cons.mp hn with ⟨hx, hxs⟩
    rw [uniqAux, if_neg (hs x (List.mem_cons_self _ _))]
    congr 1
    refine ih _ hxs ?_
    intro a ha
    rw [List.mem_cons]
    rintro (h | h)
    · exact hx (h ▸ ha)
    · exact hs a (List.mem_cons_of_mem _ ha) h

theorem uniq_eq_self_of_nodup {α : Type} [DecidableEq α] (l : List α) (hn : l.Nodup) :
    uniq l = l :=
  uniqAux_eq_self l [] hn (by simp)

theorem mem_variants_ne_ref (recs : List Row) (i : Nat) (f : Fld) (v : String)
    (hv : v ∈ variants recs i f) : v ≠ reference_by_id recs f i := by
  have h1 := mem_of_mem_uniq _ _ hv
  have h2 := List.of_mem_filter h1
  simpa using h2

/-! ## C1 -/

/-- C1: for every identifier, every key field (`first_name`, `last_name`,
`postcode`) and any data set, the post-fallback explosion list of that
(identifier, field) is non-empty: when no variant was classified as an
explosion the list is exactly the synthetic singleton holding the
reference value, and otherwise it is exactly the classified variants,
with no fallback entry added; consequently the identifier's output list
contains an entry for the field. -/
theorem C1_fallback_nonempty (recs : List Row) (parse : String → Option Nat) (i : Nat)
    (f : Fld) (hk : f.is_key = true) :
    field_entries recs parse i f ≠ [] ∧
    (classified recs parse i f = [] →
      field_entries recs parse i f = [reference_by_id recs f i]) ∧
    (classified recs parse i f ≠ [] →
      field_entries recs parse i f = classified recs parse i f) ∧
    ∃ v, (f, v) ∈ explosions_by_id recs parse i := by
  have hmain : field_entries recs parse i f ≠ [] ∧
      (classified recs parse i f = [] →
        field_entries recs parse i f = [reference_by_id recs f i]) ∧
      (classified recs parse i f ≠ [] →
        field_entries recs parse i f = classified recs parse i f) := by
    by_cases hc : classified recs parse i f = []
    · refine ⟨?_, fun _ => ?_, fun h => absurd hc h⟩ <;>
        simp [field_entries, hc, hk]
    · refine ⟨?_, fun h => absurd h hc, fun _ => ?_⟩ <;>
        simp [field_entries, hc]
  refine ⟨hmain.1, hmain.2.1, hmain.2.2, ?_⟩
  obtain ⟨v, hv⟩ := List.exists_mem_of_ne_nil _ hmain.1
  refine ⟨v, List.mem_flatMap.mpr ⟨f, ?_, List.mem_map.mpr ⟨v, hv, rfl⟩⟩⟩
  cases f <;> simp [ALL_FIELDS]

/-- Witness for C1 at the spec's fallback scenario. -/
theorem C1_fallback_nonempty_witness :
    Fld.is_key .postcode = true ∧ field_entries ceFallback dayfirst_parse 2 .postcode ≠ [] :=
  ⟨rfl, (C1_fallback_nonempty ceFallback dayfirst_parse 2 .postcode rfl).1⟩

/-! ## C2 -/

/-- C2 counterexample: on the spec's own fallback scenario (identifier 2,
postcode constantly `"sw1a1aa"`), the reference value `"sw1a1aa"` *is*
present in the postcode explosion list of identifier 2 — the fallback
rule inserts it — refuting the claim that the reference is never present
in the (post-fallback) explosion list. -/
theorem C2_counterexample :
    reference_by_id ceFallback .postcode 2 = "sw1a1aa" ∧
    (Fld.postcode, "sw1a1aa") ∈ explosions_by_id ceFallback dayfirst_parse 2 := by
  constructor
  · rfl
  · decide

/-- C2 (amended): the reference value is never among the variants
*classified* as explosions (the pre-fallback list), and a variant equal
to the reference is never classified as an explosion by
`should_explode`, regardless of metric; the reference can enter the
post-fallback list only as the synthetic fallback entry. -/
theorem C2_no_self_explosion (recs : List Row) (parse : String → Option Nat)
    (i : Nat) (f : Fld) :
    reference_by_id recs f i ∉ classified recs parse i f ∧
    ∀ r : String, should_explode parse f r r = false := by
  constructor
  · intro hmem
    exact mem_variants_ne_ref recs i f _ (List.mem_of_mem_filter hmem) rfl
  · intro r
    simp [should_explode]

/-- Witness for the amended C2 at the fallback scenario. -/
theorem C2_no_self_explosion_witness :
    reference_by_id ceFallback .postcode 2 ∉ classified ceFallback dayfirst_parse 2 .postcode ∧
    ∀ r : String, should_explode dayfirst_parse .postcode r r = false :=
  C2_no_self_explosion ceFallback dayfirst_parse 2 .postcode

/-! ## C3 -/

/-- C3: for every identifier, field and distinct observed variant
(necessarily differing from the reference), membership in the classified
explosion list coincides with the fixed field-class predicate: names by
Jaro-Winkler similarity below 0.88, `dob` by the day-first date
comparison, `postcode` by positive Levenshtein distance, and every other
field (`sex`, `address`, `telephone`, `email`) unconditionally. -/
theorem C3_classifier_policy (recs : List Row) (parse : String → Option Nat)
    (i : Nat) (f : Fld) (v : String) (hv : v ∈ variants recs i f) :
    v ≠ reference_by_id recs f i ∧
    (v ∈ classified recs parse i f ↔
      (match f with
       | .first_name => jaro_winkler (reference_by_id recs f i) v < 88/100
       | .last_name => jaro_winkler (reference_by_id recs f i) v < 88/100
       | .dob => date_exploded parse (reference_by_id recs f i) v = true
       | .postcode => 0 < levenshtein (reference_by_id recs f i) v
       | .sex => True
       | .address => True
       | .telephone => True
       | .email => True)) := by
  refine ⟨mem_variants_ne_ref recs i f v hv, ?_⟩
  rw [classified, List.mem_filter]
  cases f <;> simp [explode_test, hv]

/-- Witness for C3: the postcode variant `"ab"` against reference
`"ac"`. -/
theorem C3_classifier_policy_witness :
    "ab" ∈ variants cePost 1 .postcode ∧
    ("ab" ≠ reference_by_id cePost .postcode 1 ∧
      ("ab" ∈ classified cePost dayfirst_parse 1 .postcode ↔
        0 < levenshtein (reference_by_id cePost .postcode 1) "ab")) :=
  ⟨by decide, C3_classifier_policy cePost dayfirst_parse 1 .postcode "ab" (by decide)⟩

/-! ## C6 -/

/-- C6: `date_exploded` returns `false` exactly when both inputs parse
and denote the same calendar date; it returns `true` when the parsed
dates differ and whenever either input fails to parse (never raising,
never dropping).  In particular, with the modelled day-first parser, the
reference `"1985-06-15"` against the variant `"1985/06/15"` is not
exploded (same date, different format), while `"1985-06-16"` is. -/
theorem C6_date_exploded :
    (∀ (parse : String → Option Nat) (ref var : String),
      (date_exploded parse ref var = false ↔
        ∃ d, parse ref = some d ∧ parse var = some d)) ∧
    date_exploded dayfirst_parse "1985-06-15" "1985/06/15" = false ∧
    date_exploded dayfirst_parse "1985-06-15" "1985-06-16" = true := by
  refine ⟨?_, by decide, by decide⟩
  intro parse ref var
  unfold date_exploded
  cases h1 : parse ref <;> cases h2 : parse var <;> simp
  exact eq_comm

/-! ## C4 -/

theorem getLastD_map_ne_nil (l : List Row) (g : Row → String) (h : l ≠ []) :
    (l.map g).getLastD "" = g (l.getLast h) := by
  rw [List.getLastD_eq_getLast?, List.getLast?_map, List.getLast?_eq_getLast l h]
  rfl

theorem ts_le_getLast : ∀ (l : List Row) (h : l ≠ []), l.Pairwise tsLe →
    ∀ r ∈ l, r.ts ≤ (l.getLast h).ts := by
  intro l
  induction l with
  | nil => intro h; exact absurd rfl h
  | cons x xs ih =>
    intro h hp r hr
    cases xs with
    | nil =>
      rcases List.mem_singleton.mp hr with rfl
      exact Nat.le_refl _
    | cons y t =>
      rw [List.getLast_cons (List.cons_ne_nil y t)]
      rcases List.mem_cons.mp hr with h1 | h1
      · subst h1
        exact (List.pairwise_cons.mp hp).1 _ (List.getLast_mem _)
      · exact ih (List.cons_ne_nil y t) (List.pairwise_cons.mp hp).2 r h1

/-- C4: for a non-empty identifier group, the reference selector yields
exactly one value per field, namely the field value of the last record of
the group: in row-order mode (`reference_by_id`) the last record in
arrival order, and in timestamp mode (`get_references`) the record that
sorts last under ascending timestamp — a record of the group whose
timestamp is maximal.  Both modes are supported. -/
theorem C4_reference_selection (recs : List Row) (i : Nat) (f : Fld)
    (h : group recs i ≠ []) :
    reference_by_id recs f i = ((group recs i).getLast h).get f ∧
    ∃ r ∈ group recs i, get_references recs i f = r.get f ∧
      ∀ s ∈ group recs i, s.ts ≤ r.ts := by
  constructor
  · unfold reference_by_id
    exact getLastD_map_ne_nil _ _ h
  · have hperm : List.Perm ((List.insertionSort tsLe recs).filter (fun r => r.id = i)) (group recs i) :=
      (List.perm_insertionSort tsLe recs).filter _
    have hne : ((List.insertionSort tsLe recs).filter (fun r => r.id = i)) ≠ [] := by
      intro h0
      rw [h0] at hperm
      exact h hperm.symm.eq_nil
    refine ⟨_, hperm.mem_iff.mp (List.getLast_mem hne), ?_, ?_⟩
    · unfold get_references
      exact getLastD_map_ne_nil _ _ hne
    · intro s hs
      have hsorted : ((List.insertionSort tsLe recs).filter (fun r => r.id = i)).Pairwise tsLe :=
        (List.sorted_insertionSort tsLe recs).filter _
      exact ts_le_getLast _ hne hsorted s (hperm.mem_iff.mpr hs)

/-- Witness for C4 on the two-row group. -/
theorem C4_reference_selection_witness :
    group cePost 1 ≠ [] ∧
    ∃ r ∈ group cePost 1, get_references cePost 1 .postcode = r.get .postcode ∧
      ∀ s ∈ group cePost 1, s.ts ≤ r.ts := by
  have hne : group cePost 1 ≠ [] := by simp [group, cePost]
  exact ⟨hne, (C4_reference_selection cePost 1 .postcode hne).2⟩

/-! ## C5 -/

theorem filterMap_fld_not_mem (F : Fld → List String) (f : Fld) :
    ∀ L : List Fld, f ∉ L →
      (L.flatMap (fun g => (F g).map (fun v => (g, v)))).filterMap
        (fun q => if q.1 = f then some q.2 else none) = [] := by
  intro L
  induction L with
  | nil => intro _; rfl
  | cons g L ih =>
    intro hf
    have hg : g ≠ f := fun h => hf (h ▸ List.mem_cons_self _ _)
    rw [List.flatMap_cons, List.filterMap_append,
      ih (fun h => hf (List.mem_cons_of_mem _ h)), List.append_nil, List.filterMap_map]
    simp [Function.comp_def, hg]

theorem filterMap_fld (F : Fld → List String) (f : Fld) :
    ∀ L : List Fld, L.Nodup → f ∈ L →
      (L.flatMap (fun g => (F g).map (fun v => (g, v)))).filterMap
        (fun q => if q.1 = f then some q.2 else none) = F f := by
  intro L
  induction L with
  | nil => intro _ hf; simp at hf
  | cons g L ih =>
    intro hnd hf
    rw [List.flatMap_cons, List.filterMap_append]
    rcases List.mem_cons.mp hf with rfl | hf'
    · rw [filterMap_fld_not_mem F f L (List.nodup_cons.mp hnd).1, List.append_nil,
        List.filterMap_map]
      simp [Function.comp_def]
    · have hg : g ≠ f := by
        rintro rfl
        exact (List.nodup_cons.mp hnd).1 hf'
      rw [ih (List.nodup_cons.mp hnd).2 hf', List.filterMap_map]
      simp [Function.comp_def, hg]

theorem variants_nodup (recs : List Row) (i : Nat) (f : Fld) : (variants recs i f).Nodup :=
  uniq_nodup _

theorem field_entries_nodup (recs : List Row) (parse : String → Option Nat) (i : Nat)
    (f : Fld) : (field_entries recs parse i f).Nodup := by
  unfold field_entries
  by_cases hc : classified recs parse i f = []
  · simp only [hc, List.nil_append]
    split <;> simp
  · simp only [hc, and_false, if_false, List.append_nil]
    exact (variants_nodup recs i f).filter _

theorem ALL_FIELDS_nodup : ALL_FIELDS.Nodup := by decide

theorem mem_ALL_FIELDS (f : Fld) : f ∈ ALL_FIELDS := by cases f <;> decide

theorem grouped_variants_eq (recs : List Row) (parse : String → Option Nat) (i : Nat)
    (f : Fld) : grouped_variants recs parse i f = field_entries recs parse i f := by
  unfold grouped_variants explosions_by_id
  rw [filterMap_fld (fun g => field_entries recs parse i g) f ALL_FIELDS ALL_FIELDS_nodup
    (mem_ALL_FIELDS f)]
  exact uniq_eq_self_of_nodup _ (field_entries_nodup recs parse i f)

theorem cartProd_length :
    ∀ ls : List (List String), (cartProd ls).length = (ls.map List.length).prod := by
  intro ls
  induction ls with
  | nil => rfl
  | cons l ls ih =>
    simp only [cartProd, List.length_flatMap, List.map_cons, List.prod_cons,
      Function.comp_def, List.length_map, ih]
    rw [List.map_const', List.sum_replicate, smul_eq_mul]

/-- C5: the Combination Generator builds, per configured field, the
field's exploded variant list when non-empty and the reference singleton
otherwise; its output has exactly one row per tuple of the Cartesian
product, so the row count equals the product of the per-field list sizes
(each at least 1); and the columns of every row are the identifier first,
followed by the fields sorted lexically by name. -/
theorem C5_combination_generator (recs : List Row) (parse : String → Option Nat) (i : Nat) :
    variant_lists recs parse i = ALL_FIELDS.map (fun f =>
      if field_entries recs parse i f ≠ [] then field_entries recs parse i f
      else [reference_by_id recs f i]) ∧
    (df_wide_rows recs parse i).length = ((variant_lists recs parse i).map List.length).prod ∧
    (∀ l ∈ variant_lists recs parse i, 1 ≤ l.length) ∧
    (∀ row ∈ df_wide_rows recs parse i, row.map Prod.fst = "id" :: sorted_fields.map Fld.name) ∧
    sorted_fields.map Fld.name =
      ["address", "dob", "email", "first_name", "last_name", "postcode", "sex", "telephone"] := by
  refine ⟨?_, ?_, ?_, ?_, by decide⟩
  · unfold variant_lists
    exact List.map_congr_left (fun f _ => by rw [grouped_variants_eq])
  · unfold df_wide_rows
    rw [List.length_map, cartProd_length]
  · intro l hl
    unfold variant_lists at hl
    rcases List.mem_map.mp hl with ⟨f, _, rfl⟩
    dsimp only
    split
    · rename_i hne
      exact List.length_pos.mpr hne
    · simp
  · intro row hrow
    unfold df_wide_rows at hrow
    rcases List.mem_map.mp hrow with ⟨combo, _, rfl⟩
    simp [List.map_map, Function.comp_def]

/-- Witness for C5: the postcode list of the two-row group. -/
theorem C5_combination_generator_witness :
    ["ab"] ∈ variant_lists cePost dayfirst_parse 1 ∧ 1 ≤ (["ab"] : List String).length :=
  ⟨by decide, (C5_combination_generator cePost dayfirst_parse 1).2.2.1 ["ab"] (by decide)⟩

/-! ## C7 -/

/-- C7 (code bug in `example_explode_analysis.py`): on the script's own
data, identifiers 1 and 2 share the telephone reference value
`"0207946000"`, and identifier 1 observes the variant `"02079460000"`;
yet the example metadata for that reference value contains only
identifier 2's variants — the loop's `metadata[fld][ref_val] = ...`
assignment lets the later identifier replace the earlier one's variants
instead of aggregating them.  `build_metadata` of `profile_exploded.py`
aggregates across the identifiers sharing the reference value, as the
spec requires. -/
theorem C7_metadata_keying :
    reference_by_id df .telephone 1 = "0207946000" ∧
    reference_by_id df .telephone 2 = "0207946000" ∧
    "02079460000" ∈ occurrences df 1 .telephone ∧
    metadata df dayfirst_parse .telephone "0207946000" =
      some [("2079460000", { frequency := 1 }), ("+44 20 79460000", { frequency := 1 })] ∧
    build_metadata df dayfirst_parse .telephone "0207946000" =
      [("02079460000", { frequency := 1 }), ("+442079460000", { frequency := 1 }),
       ("2079460000", { frequency := 1 }), ("+44 20 79460000", { frequency := 1 })] :=
  ⟨rfl, rfl, by decide, by decide, by decide⟩

/-! ## C8: the Levenshtein metric

First the reference recursion `levR` is characterised (basic equations and
one-step bounds), then `EditSteps` is shown to capture it exactly
(existence and minimality), giving symmetry, the zero-iff-equal law and
the triangle inequality; finally the source's row DP is proved equal to
`levR` on reversed inputs, transporting the three laws to
`levenshtein`. -/

theorem levR_nil_left (ys : List Char) : levR [] ys = ys.length := by
  rw [levR]

theorem levR_nil_right : ∀ xs : List Char, levR xs [] = xs.length := by
  intro xs
  cases xs <;> rw [levR]
  rfl

theorem levR_cons_cons (x y : Char) (xs ys : List Char) :
    levR (x :: xs) (y :: ys) =
      min (levR xs (y :: ys) + 1)
        (min (levR (x :: xs) ys + 1) (levR xs ys + (if x = y then 0 else 1))) := by
  rw [levR]

theorem levR_self : ∀ xs : List Char, levR xs xs = 0 := by
  intro xs
  induction xs with
  | nil => rw [levR_nil_left]; rfl
  | cons x xs ih => rw [levR_cons_cons, if_pos rfl]; omega

theorem levR_le_cons_left (x : Char) (xs ys : List Char) :
    levR (x :: xs) ys ≤ levR xs ys + 1 := by
  cases ys with
  | nil => rw [levR_nil_right, levR_nil_right]; rfl
  | cons y ys => rw [levR_cons_cons]; omega

theorem levR_le_cons_right (y : Char) (xs ys : List Char) :
    levR xs (y :: ys) ≤ levR xs ys + 1 := by
  cases xs with
  | nil => rw [levR_nil_left, levR_nil_left]; rfl
  | cons x xs => rw [levR_cons_cons]; omega

theorem levR_le_subst (x y : Char) (xs ys : List Char) :
    levR (x :: xs) (y :: ys) ≤ levR xs ys + 1 := by
  rw [levR_cons_cons]
  split <;> omega

theorem levR_le_keep (x : Char) (xs ys : List Char) :
    levR (x :: xs) (x :: ys) ≤ levR xs ys := by
  rw [levR_cons_cons, if_pos rfl]
  omega

theorem editSteps_nil_left : ∀ ys : List Char, EditSteps ys.length [] ys := by
  intro ys
  induction ys with
  | nil => exact .nil
  | cons y ys ih => exact .ins y ih

theorem editSteps_nil_right : ∀ xs : List Char, EditSteps xs.length xs [] := by
  intro xs
  induction xs with
  | nil => exact .nil
  | cons x xs ih => exact .del x ih

theorem editSteps_exists : ∀ (n : Nat) (xs ys : List Char), xs.length + ys.length ≤ n →
    EditSteps (levR xs ys) xs ys := by
  intro n
  induction n with
  | zero =>
    intro xs ys h
    have hx : xs = [] := List.eq_nil_of_length_eq_zero (by omega)
    have hy : ys = [] := List.eq_nil_of_length_eq_zero (by omega)
    subst hx; subst hy
    rw [levR_nil_left]
    exact .nil
  | succ n ih =>
    intro xs ys h
    match xs, ys with
    | [], ys =>
      rw [levR_nil_left]
      exact editSteps_nil_left ys
    | x :: xs, [] =>
      rw [levR_nil_right]
      exact editSteps_nil_right _
    | x :: xs, y :: ys =>
      simp only [List.length_cons] at h
      have h1 := ih xs (y :: ys) (by simp only [List.length_cons]; omega)
      have h2 := ih (x :: xs) ys (by simp only [List.length_cons]; omega)
      have h3 := ih xs ys (by omega)
      rw [levR_cons_cons]
      by_cases hxy : x = y
      · rw [if_pos hxy]
        have hm : min (levR xs (y :: ys) + 1)
              (min (levR (x :: xs) ys + 1) (levR xs ys + 0)) = levR xs (y :: ys) + 1 ∨
            min (levR xs (y :: ys) + 1)
              (min (levR (x :: xs) ys + 1) (levR xs ys + 0)) = levR (x :: xs) ys + 1 ∨
            min (levR xs (y :: ys) + 1)
              (min (levR (x :: xs) ys + 1) (levR xs ys + 0)) = levR xs ys := by
          omega
        rcases hm with hm | hm | hm <;> rw [hm]
        · exact .del x h1
        · exact .ins y h2
        · subst hxy; exact .keep x h3
      · rw [if_neg hxy]
        have hm : min (levR xs (y :: ys) + 1)
              (min (levR (x :: xs) ys + 1) (levR xs ys + 1)) = levR xs (y :: ys) + 1 ∨
            min (levR xs (y :: ys) + 1)
              (min (levR (x :: xs) ys + 1) (levR xs ys + 1)) = levR (x :: xs) ys + 1 ∨
            min (levR xs (y :: ys) + 1)
              (min (levR (x :: xs) ys + 1) (levR xs ys + 1)) = levR xs ys + 1 := by
          omega
        rcases hm with hm | hm | hm <;> rw [hm]
        · exact .del x h1
        · exact .ins y h2
        · exact .subst x y h3

theorem editSteps_levR (xs ys : List Char) : EditSteps (levR xs ys) xs ys :=
  editSteps_exists (xs.length + ys.length) xs ys (Nat.le_refl _)

theorem editSteps_min {n : Nat} {xs ys : List Char} (h : EditSteps n xs ys) :
    levR xs ys ≤ n := by
  induction h with
  | nil => rw [levR_nil_left]; exact Nat.le_refl _
  | keep x _ ih => exact Nat.le_trans (levR_le_keep _ _ _) ih
  | subst x y _ ih => exact Nat.le_trans (levR_le_subst _ _ _ _) (by omega)
  | del x _ ih => exact Nat.le_trans (levR_le_cons_left _ _ _) (by omega)
  | ins y _ ih => exact Nat.le_trans (levR_le_cons_right _ _ _) (by omega)

theorem editSteps_symm {n : Nat} {xs ys : List Char} (h : EditSteps n xs ys) :
    EditSteps n ys xs := by
  induction h with
  | nil => exact .nil
  | keep x _ ih => exact .keep x ih
  | subst x y _ ih => exact .subst y x ih
  | del x _ ih => exact .ins x ih
  | ins y _ ih => exact .del y ih

theorem levR_comm (xs ys : List Char) : levR xs ys = levR ys xs :=
  Nat.le_antisymm (editSteps_min (editSteps_symm (editSteps_levR ys xs)))
    (editSteps_min (editSteps_symm (editSteps_levR xs ys)))

theorem editSteps_zero : ∀ {n : Nat} {xs ys : List Char}, EditSteps n xs ys → n = 0 →
    xs = ys := by
  intro n xs ys h
  induction h with
  | nil => intro _; rfl
  | keep x _ ih => intro h0; rw [ih h0]
  | subst x y _ _ => intro h0; omega
  | del x _ _ => intro h0; omega
  | ins y _ _ => intro h0; omega

theorem levR_eq_zero_iff (xs ys : List Char) : levR xs ys = 0 ↔ xs = ys := by
  constructor
  · intro h
    exact editSteps_zero (editSteps_levR xs ys) h
  · rintro rfl
    exact levR_self xs

theorem editSteps_comp : ∀ (N : Nat) (a b c : List Char) (m n : Nat),
    a.length + b.length + c.length ≤ N →
    EditSteps m a b → EditSteps n b c → ∃ k, k ≤ m + n ∧ EditSteps k a c := by
  intro N
  induction N with
  | zero =>
    intro a b c m n hlen h1 h2
    have ha : a = [] := List.eq_nil_of_length_eq_zero (by omega)
    have hc : c = [] := List.eq_nil_of_length_eq_zero (by omega)
    subst ha; subst hc
    exact ⟨0, by omega, .nil⟩
  | succ N ih =>
    intro a b c m n hlen h1 h2
    cases h1 with
    | nil =>
      exact ⟨n, by omega, h2⟩
    | keep x h1' =>
      cases h2 with
      | keep z h2' =>
        obtain ⟨k, hk, hE⟩ := ih _ _ _ _ _
          (by simp only [List.length_cons] at hlen ⊢; omega) h1' h2'
        exact ⟨k, by omega, .keep x hE⟩
      | subst z w h2' =>
        obtain ⟨k, hk, hE⟩ := ih _ _ _ _ _
          (by simp only [List.length_cons] at hlen ⊢; omega) h1' h2'
        exact ⟨k + 1, by omega, .subst x w hE⟩
      | del z h2' =>
        obtain ⟨k, hk, hE⟩ := ih _ _ _ _ _
          (by simp only [List.length_cons] at hlen ⊢; omega) h1' h2'
        exact ⟨k + 1, by omega, .del x hE⟩
      | ins w h2' =>
        obtain ⟨k, hk, hE⟩ := ih _ _ _ _ _
          (by simp only [List.length_cons] at hlen ⊢; omega) (EditSteps.keep x h1') h2'
        exact ⟨k + 1, by omega, .ins w hE⟩
    | subst x y h1' =>
      cases h2 with
      | keep z h2' =>
        obtain ⟨k, hk, hE⟩ := ih _ _ _ _ _
          (by simp only [List.length_cons] at hlen ⊢; omega) h1' h2'
        exact ⟨k + 1, by omega, .subst x y hE⟩
      | subst z w h2' =>
        obtain ⟨k, hk, hE⟩ := ih _ _ _ _ _
          (by simp only [List.length_cons] at hlen ⊢; omega) h1' h2'
        by_cases hxw : x = w
        · subst hxw
          exact ⟨k, by omega, .keep x hE⟩
        · exact ⟨k + 1, by omega, .subst x w hE⟩
      | del z h2' =>
        obtain ⟨k, hk, hE⟩ := ih _ _ _ _ _
          (by simp only [List.length_cons] at hlen ⊢; omega) h1' h2'
        exact ⟨k + 1, by omega, .del x hE⟩
      | ins w h2' =>
        obtain ⟨k, hk, hE⟩ := ih _ _ _ _ _
          (by simp only [List.length_cons] at hlen ⊢; omega) (EditSteps.subst x y h1') h2'
        exact ⟨k + 1, by omega, .ins w hE⟩
    | del x h1' =>
      obtain ⟨k, hk, hE⟩ := ih _ _ _ _ _
        (by simp only [List.length_cons] at hlen ⊢; omega) h1' h2
      exact ⟨k + 1, by omega, .del x hE⟩
    | ins y h1' =>
      cases h2 with
      | keep z h2' =>
        obtain ⟨k, hk, hE⟩ := ih _ _ _ _ _
          (by simp only [List.length_cons] at hlen ⊢; omega) h1' h2'
        exact ⟨k + 1, by omega, .ins y hE⟩
      | subst z w h2' =>
        obtain ⟨k, hk, hE⟩ := ih _ _ _ _ _
          (by simp only [List.length_cons] at hlen ⊢; omega) h1' h2'
        exact ⟨k + 1, by omega, .ins w hE⟩
      | del z h2' =>
        obtain ⟨k, hk, hE⟩ := ih _ _ _ _ _
          (by simp only [List.length_cons] at hlen ⊢; omega) h1' h2'
        exact ⟨k, by omega, hE⟩
      | ins w h2' =>
        obtain ⟨k, hk, hE⟩ := ih _ _ _ _ _
          (by simp only [List.length_cons] at hlen ⊢; omega) (EditSteps.ins y h1') h2'
        exact ⟨k + 1, by omega, .ins w hE⟩

theorem levR_triangle (a b c : List Char) : levR a c ≤ levR a b + levR b c := by
  obtain ⟨k, hk, hE⟩ := editSteps_comp (a.length + b.length + c.length) a b c _ _
    (Nat.le_refl _) (editSteps_levR a b) (editSteps_levR b c)
  exact Nat.le_trans (editSteps_min hE) hk

theorem rowAux_eq_cons (xs r : List Char) (v : List Char) :
    rowAux xs r v = levR xs r :: (rowAux xs r v).tail := by
  cases v <;> rfl

theorem rowAux_ne_nil (xs r : List Char) (v : List Char) : rowAux xs r v ≠ [] := by
  rw [rowAux_eq_cons]
  exact List.cons_ne_nil _ _

theorem levInner_row (ca : Char) (xs : List Char) :
    ∀ (v r : List Char),
      levInner ca v (rowAux xs r v) (levR (ca :: xs) r) = (rowAux (ca :: xs) r v).tail := by
  intro v
  induction v with
  | nil => intro r; rfl
  | cons cb v ih =>
    intro r
    rw [show rowAux xs r (cb :: v) = levR xs r :: rowAux xs (cb :: r) v from rfl,
      rowAux_eq_cons xs (cb :: r) v]
    rw [levInner]
    rw [← rowAux_eq_cons xs (cb :: r) v, ← levR_cons_cons, ih (cb :: r),
      ← rowAux_eq_cons]
    rfl

theorem levOuter_row (b : List Char) :
    ∀ (as xs : List Char),
      levOuter b as (xs.length + 1) (rowAux xs [] b) = rowAux (as.reverse ++ xs) [] b := by
  intro as
  induction as with
  | nil => intro xs; rw [levOuter]; rfl
  | cons ca as ih =>
    intro xs
    rw [levOuter]
    rw [show xs.length + 1 = levR (ca :: xs) [] from (levR_nil_right (ca :: xs)).symm]
    rw [levInner_row ca xs b, ← rowAux_eq_cons]
    rw [show levR (ca :: xs) [] + 1 = (ca :: xs).length + 1 from by rw [levR_nil_right]]
    rw [ih (ca :: xs)]
    congr 1
    rw [List.reverse_cons, List.append_assoc]
    rfl

theorem rowAux_range' : ∀ (v r : List Char),
    rowAux [] r v = List.range' r.length (v.length + 1) := by
  intro v
  induction v with
  | nil =>
    intro r
    rw [show rowAux [] r [] = [levR [] r] from rfl, levR_nil_left]
    rfl
  | cons cb v ih =>
    intro r
    rw [show rowAux [] r (cb :: v) = levR [] r :: rowAux [] (cb :: r) v from rfl,
      levR_nil_left, ih (cb :: r)]
    rw [show (cb :: r).length = r.length + 1 from rfl,
      show (cb :: v).length + 1 = (v.length + 1) + 1 from rfl,
      List.range'_succ r.length (v.length + 1)]

theorem rowAux_getLast (xs : List Char) : ∀ (v r : List Char),
    (rowAux xs r v).getLastD 0 = levR xs (v.reverse ++ r) := by
  intro v
  induction v with
  | nil => intro r; rfl
  | cons cb v ih =>
    intro r
    rw [show rowAux xs r (cb :: v) = levR xs r :: rowAux xs (cb :: r) v from rfl]
    rw [rowAux_eq_cons xs (cb :: r) v, List.getLastD_eq_getLast?, List.getLast?_cons_cons,
      ← List.getLastD_eq_getLast?, ← rowAux_eq_cons xs (cb :: r) v, ih (cb :: r)]
    congr 1
    rw [List.reverse_cons, List.append_assoc]
    rfl

theorem levCore_eq (a b : List Char) : levCore a b = levR a.reverse b.reverse := by
  unfold levCore
  have hinit : List.range (b.length + 1) = rowAux [] [] b := by
    rw [rowAux_range' b [], List.range_eq_range']
    rfl
  rw [hinit, show (1 : Nat) = ([] : List Char).length + 1 from rfl, levOuter_row,
    List.append_nil, rowAux_getLast, List.append_nil]

theorem levenshtein_eq (sa sb : String) :
    levenshtein sa sb = levR sa.data.reverse sb.data.reverse := by
  unfold levenshtein
  dsimp only
  split
  · rw [levCore_eq]
    exact levR_comm _ _
  · rw [levCore_eq]

/-- C8: the source's `levenshtein` is a metric on strings: symmetric,
zero exactly on equal strings, and satisfying the triangle inequality. -/
theorem C8_levenshtein_metric (a b c : String) :
    levenshtein a b = levenshtein b a ∧
    (levenshtein a b = 0 ↔ a = b) ∧
    levenshtein a c ≤ levenshtein a b + levenshtein b c := by
  refine ⟨?_, ?_, ?_⟩
  · rw [levenshtein_eq, levenshtein_eq]
    exact levR_comm _ _
  · rw [levenshtein_eq, levR_eq_zero_iff]
    constructor
    · intro h
      exact String.ext (List.reverse_inj.mp h)
    · rintro rfl
      rfl
  · rw [levenshtein_eq, levenshtein_eq, levenshtein_eq]
    exact levR_triangle _ _ _

/-! ## C10: Jaro-Winkler bounds -/

theorem findJ_some {s2 : List Char} {m : List Bool} {c : Char} {lo cnt j : Nat}
    (h : findJ s2 m c lo cnt = some j) :
    m.getD j true = false ∧ s2.get? j = some c := by
  have hp := List.find?_some h
  simp only [Bool.and_eq_true, Bool.not_eq_true', decide_eq_true_eq] at hp
  exact hp

theorem findJ_lt {s2 : List Char} {m : List Bool} {c : Char} {lo cnt j : Nat}
    (h : findJ s2 m c lo cnt = some j) : j < m.length := by
  by_contra hj
  have h1 := (findJ_some h).1
  rw [List.getD_eq_default] at h1
  · exact absurd h1 (by simp)
  · omega

theorem count_set_true : ∀ (m : List Bool) (j : Nat), m.getD j true = false →
    (m.set j true).count true = m.count true + 1 := by
  intro m
  induction m with
  | nil => intro j h; simp [List.getD] at h
  | cons b m ih =>
    intro j h
    cases j with
    | zero =>
      simp only [List.getD_cons_zero] at h
      subst h
      simp [List.count_cons]
    | succ j =>
      simp only [List.getD_cons_succ] at h
      simp only [List.set_cons_succ, List.count_cons, ih j h]
      omega

theorem jwLoop_fst_length (s2 : List Char) (d : Int) :
    ∀ (l : List Char) (i : Nat) (m : List Bool), (jwLoop s2 d l i m).1.length = l.length := by
  intro l
  induction l with
  | nil => intro i m; rfl
  | cons c rest ih =>
    intro i m
    rw [jwLoop]
    split <;> simp [ih]

theorem jwLoop_snd_length (s2 : List Char) (d : Int) :
    ∀ (l : List Char) (i : Nat) (m : List Bool), (jwLoop s2 d l i m).2.length = m.length := by
  intro l
  induction l with
  | nil => intro i m; rfl
  | cons c rest ih =>
    intro i m
    rw [jwLoop]
    split <;> simp [ih]

theorem jwLoop_count (s2 : List Char) (d : Int) :
    ∀ (l : List Char) (i : Nat) (m : List Bool),
      (jwLoop s2 d l i m).2.count true = m.count true + (jwLoop s2 d l i m).1.count true := by
  intro l
  induction l with
  | nil => intro i m; simp [jwLoop]
  | cons c rest ih =>
    intro i m
    rw [jwLoop]
    split
    · rename_i j hj
      simp [List.count_cons, ih, count_set_true m j (findJ_some hj).1]
      omega
    · simp [List.count_cons, ih]

theorem matchedChars_length : ∀ (s : List Char) (m : List Bool), s.length = m.length →
    (matchedChars s m).length = m.count true := by
  intro s
  induction s with
  | nil =>
    intro m h
    have : m = [] := List.eq_nil_of_length_eq_zero h.symm
    subst this
    rfl
  | cons a s ih =>
    intro m h
    cases m with
    | nil => simp at h
    | cons b m' =>
      simp only [List.length_cons] at h
      have ihm := ih m' (by omega)
      cases b <;>
        simp [matchedChars, List.count_cons, List.filter_cons] at ihm ⊢ <;>
        omega

theorem matchedChars_eq_nil {s : List Char} {m : List Bool} (h : m.count true = 0) :
    matchedChars s m = [] := by
  unfold matchedChars
  rw [List.filter_eq_nil_iff.mpr, List.map_nil]
  intro q hq
  have hqm : q.2 ∈ m := (List.of_mem_zip hq).2
  cases hq2 : q.2
  · simp [hq2]
  · rw [hq2] at hqm
    rw [List.count_eq_zero] at h
    exact absurd hqm h

theorem jw_matches_le_left (s1 s2 : String) : jw_matches s1 s2 ≤ s1.data.length := by
  unfold jw_matches jw_flags
  calc (jwLoop s2.data (matchDist s1.data.length s2.data.length) s1.data 0
        (List.replicate s2.data.length false)).1.count true
      ≤ (jwLoop s2.data (matchDist s1.data.length s2.data.length) s1.data 0
        (List.replicate s2.data.length false)).1.length := List.count_le_length _ _
    _ = s1.data.length := jwLoop_fst_length _ _ _ _ _

theorem jw_snd_count (s1 s2 : String) :
    (jw_flags s1 s2).2.count true = jw_matches s1 s2 := by
  unfold jw_matches jw_flags
  rw [jwLoop_count]
  simp [List.count_replicate]

theorem jw_matches_le_right (s1 s2 : String) : jw_matches s1 s2 ≤ s2.data.length := by
  rw [← jw_snd_count]
  calc (jw_flags s1 s2).2.count true ≤ (jw_flags s1 s2).2.length := List.count_le_length _ _
    _ = s2.data.length := by
      unfold jw_flags
      rw [jwLoop_snd_length]
      simp

theorem jw_fst_flags_length (s1 s2 : String) : (jw_flags s1 s2).1.length = s1.data.length := by
  unfold jw_flags
  exact jwLoop_fst_length _ _ _ _ _

theorem jw_snd_flags_length (s1 s2 : String) : (jw_flags s1 s2).2.length = s2.data.length := by
  unfold jw_flags
  rw [jwLoop_snd_length]
  simp

theorem jw_trans_le (s1 s2 : String) : jw_trans_num s1 s2 ≤ jw_matches s1 s2 := by
  unfold jw_trans_num
  calc ((matchedChars s1.data (jw_flags s1 s2).1).zip
          (matchedChars s2.data (jw_flags s1 s2).2)).countP (fun q => q.1 != q.2)
      ≤ ((matchedChars s1.data (jw_flags s1 s2).1).zip
          (matchedChars s2.data (jw_flags s1 s2).2)).length := List.countP_le_length _
    _ ≤ (matchedChars s1.data (jw_flags s1 s2).1).length := by
        rw [List.length_zip]
        omega
    _ = jw_matches s1 s2 := matchedChars_length _ _ (jw_fst_flags_length s1 s2).symm

theorem jaro_score_bounds (s1 s2 : String) (h : jw_matches s1 s2 ≠ 0) :
    0 < jaro_score s1 s2 ∧ jaro_score s1 s2 ≤ 1 := by
  have hm : 1 ≤ jw_matches s1 s2 := Nat.one_le_iff_ne_zero.mpr h
  have h1 := jw_matches_le_left s1 s2
  have h2 := jw_matches_le_right s1 s2
  have h3 := jw_trans_le s1 s2
  unfold jaro_score
  have hM : (1:ℚ) ≤ (jw_matches s1 s2 : ℚ) := by exact_mod_cast hm
  have hL1 : (jw_matches s1 s2 : ℚ) ≤ (s1.data.length : ℚ) := by exact_mod_cast h1
  have hL2 : (jw_matches s1 s2 : ℚ) ≤ (s2.data.length : ℚ) := by exact_mod_cast h2
  have hT0 : (0:ℚ) ≤ (jw_trans_num s1 s2 : ℚ) := by positivity
  have hTM : (jw_trans_num s1 s2 : ℚ) ≤ (jw_matches s1 s2 : ℚ) := by exact_mod_cast h3
  have t1 : 0 < (jw_matches s1 s2 : ℚ) / (s1.data.length : ℚ) :=
    div_pos (by linarith) (by linarith)
  have t2 : 0 < (jw_matches s1 s2 : ℚ) / (s2.data.length : ℚ) :=
    div_pos (by linarith) (by linarith)
  have t3 : 0 ≤ ((jw_matches s1 s2 : ℚ) - (jw_trans_num s1 s2 : ℚ) / 2) /
      (jw_matches s1 s2 : ℚ) := div_nonneg (by linarith) (by linarith)
  have u1 : (jw_matches s1 s2 : ℚ) / (s1.data.length : ℚ) ≤ 1 :=
    div_le_one_of_le₀ hL1 (by linarith)
  have u2 : (jw_matches s1 s2 : ℚ) / (s2.data.length : ℚ) ≤ 1 :=
    div_le_one_of_le₀ hL2 (by linarith)
  have u3 : ((jw_matches s1 s2 : ℚ) - (jw_trans_num s1 s2 : ℚ) / 2) /
      (jw_matches s1 s2 : ℚ) ≤ 1 := div_le_one_of_le₀ (by linarith) (by linarith)
  constructor
  · linarith
  · linarith

theorem winkler_factor_bounds (s1 s2 : String) :
    (0:ℚ) ≤ (min (common_pre s1.data s2.data) 4 : ℚ) * (1/10) ∧
    (min (common_pre s1.data s2.data) 4 : ℚ) * (1/10) ≤ 1 := by
  have h4 : (min (common_pre s1.data s2.data) 4 : ℚ) ≤ 4 := by
    exact_mod_cast Nat.cast_le.mpr (Nat.min_le_right _ _)
  have h0 : (0:ℚ) ≤ (min (common_pre s1.data s2.data) 4 : ℚ) := by positivity
  constructor <;> linarith

theorem jaro_winkler_nonneg (s1 s2 : String) : 0 ≤ jaro_winkler s1 s2 := by
  unfold jaro_winkler
  split
  · norm_num
  · split
    · exact le_refl 0
    · rename_i h1 h2
      obtain ⟨hp, hle⟩ := jaro_score_bounds s1 s2 h2
      obtain ⟨hc0, hc1⟩ := winkler_factor_bounds s1 s2
      have hmul : 0 ≤ (min (common_pre s1.data s2.data) 4 : ℚ) * (1/10) *
          (1 - jaro_score s1 s2) := mul_nonneg hc0 (by linarith)
      linarith

theorem jaro_winkler_le_one (s1 s2 : String) : jaro_winkler s1 s2 ≤ 1 := by
  unfold jaro_winkler
  split
  · exact le_refl 1
  · split
    · norm_num
    · rename_i h1 h2
      obtain ⟨hp, hle⟩ := jaro_score_bounds s1 s2 h2
      obtain ⟨hc0, hc1⟩ := winkler_factor_bounds s1 s2
      have hmul : (min (common_pre s1.data s2.data) 4 : ℚ) * (1/10) *
          (1 - jaro_score s1 s2) ≤ 1 * (1 - jaro_score s1 s2) :=
        mul_le_mul_of_nonneg_right hc1 (by linarith)
      linarith

theorem findJ_nil (m : List Bool) (c : Char) (lo cnt : Nat) :
    findJ [] m c lo cnt = none := by
  unfold findJ
  apply List.find?_eq_none.mpr
  intro j _
  simp

theorem jwLoop_nil_fst (d : Int) :
    ∀ (l : List Char) (i : Nat) (m : List Bool), ((jwLoop [] d l i m).1.count true) = 0 := by
  intro l
  induction l with
  | nil => intro i m; rfl
  | cons c rest ih =>
    intro i m
    rw [jwLoop, findJ_nil]
    simp [List.count_cons, ih]

/-- C10: the Jaro-Winkler similarity is well defined against the 0.88
threshold for all inputs: it always lies in the closed interval `[0, 1]`;
on unequal strings it returns `0.0` exactly when no characters match
within the match window, and in particular whenever exactly one of the
strings is empty. -/
theorem C10_jaro_winkler_range (s1 s2 : String) :
    (0 ≤ jaro_winkler s1 s2 ∧ jaro_winkler s1 s2 ≤ 1) ∧
    (s1 ≠ s2 → (jaro_winkler s1 s2 = 0 ↔ jw_matches s1 s2 = 0)) ∧
    (s1 ≠ s2 → (s1.data = [] ∨ s2.data = []) → jaro_winkler s1 s2 = 0) := by
  refine ⟨⟨jaro_winkler_nonneg s1 s2, jaro_winkler_le_one s1 s2⟩, ?_, ?_⟩
  · intro hne
    constructor
    · intro h0
      by_contra hm
      obtain ⟨hp, _⟩ := jaro_score_bounds s1 s2 hm
      obtain ⟨hc0, _⟩ := winkler_factor_bounds s1 s2
      rw [jaro_winkler, if_neg hne, if_neg hm] at h0
      have hmul : 0 ≤ (min (common_pre s1.data s2.data) 4 : ℚ) * (1/10) *
          (1 - jaro_score s1 s2) := by
        apply mul_nonneg hc0
        have := (jaro_score_bounds s1 s2 hm).2
        linarith
      simp only at h0
      linarith
    · intro hm
      rw [jaro_winkler, if_neg hne, if_pos hm]
  · intro hne hemp
    have hm : jw_matches s1 s2 = 0 := by
      rcases hemp with h | h
      · unfold jw_matches jw_flags
        rw [h]
        rfl
      · unfold jw_matches jw_flags
        rw [h]
        exact jwLoop_nil_fst _ _ _ _
    rw [jaro_winkler, if_neg hne, if_pos hm]

/-- Witness for C10 at an empty/non-empty pair. -/
theorem C10_jaro_winkler_range_witness :
    ("" : String) ≠ "a" ∧ (("" : String).data = [] ∨ ("a" : String).data = []) ∧
    jaro_winkler "" "a" = 0 :=
  ⟨by decide, Or.inl rfl, (C10_jaro_winkler_range "" "a").2.2 (by decide) (Or.inl rfl)⟩

/-! ## C9 -/

/-- C9 counterexample: prepending the matching character `'a'` to the
pair `("aba", "bbabb")` (shared leading run 1 ≤ 4 afterwards) strictly
*decreases* the Jaro-Winkler similarity, from `31/45 ≈ 0.689` to
`27/40 = 0.675`: the wider match window re-pairs the characters, creating
a transposition, and the prefix boost does not compensate.  So the
similarity is not monotonically non-decreasing under adding a matching
common prefix. -/
theorem C9_counterexample :
    ("aaba" : String).data = 'a' :: ("aba" : String).data ∧
    ("abbabb" : String).data = 'a' :: ("bbabb" : String).data ∧
    common_pre ("aaba" : String).data ("abbabb" : String).data ≤ 4 ∧
    jaro_winkler "aaba" "abbabb" < jaro_winkler "aba" "bbabb" := by
  refine ⟨by decide, by decide, by decide, ?_⟩
  simp [jaro_winkler, jw_matches, jw_flags, jwLoop, findJ, matchDist, jaro_score,
    jw_trans_num, matchedChars, common_pre, List.range', List.find?]
  norm_num

/-- C9 (amended): the similarity of a string with itself is exactly
`1.0`; and adding a matching leading character to both strings never
decreases the similarity *provided the underlying Jaro score does not
decrease* — the Winkler boost (shared leading run capped at 4, factor
0.1) is monotone — but without that proviso monotonicity fails. -/
theorem C9_jaro_winkler_monotone :
    (∀ s : String, jaro_winkler s s = 1) ∧
    (∀ (s1 s2 : String) (c : Char),
      jaro_score s1 s2 ≤ jaro_score ⟨c :: s1.data⟩ ⟨c :: s2.data⟩ →
      jaro_winkler s1 s2 ≤ jaro_winkler ⟨c :: s1.data⟩ ⟨c :: s2.data⟩) := by
  constructor
  · intro s
    rw [jaro_winkler, if_pos rfl]
  · intro s1 s2 c hj
    by_cases h12 : s1 = s2
    · subst h12
      rw [jaro_winkler, if_pos rfl, jaro_winkler, if_pos rfl]
    · have h12' : (⟨c :: s1.data⟩ : String) ≠ ⟨c :: s2.data⟩ := by
        intro h
        apply h12
        apply String.ext
        have := congrArg String.data h
        simpa using this
      by_cases hm : jw_matches s1 s2 = 0
      · rw [jaro_winkler, if_neg h12, if_pos hm]
        exact jaro_winkler_nonneg _ _
      · have hm' : jw_matches ⟨c :: s1.data⟩ ⟨c :: s2.data⟩ ≠ 0 := by
          intro h0
          have htr : jw_trans_num ⟨c :: s1.data⟩ ⟨c :: s2.data⟩ = 0 := by
            unfold jw_trans_num
            rw [matchedChars_eq_nil h0]
            rfl
          have hsz : jaro_score ⟨c :: s1.data⟩ ⟨c :: s2.data⟩ = 0 := by
            unfold jaro_score
            rw [h0, htr]
            norm_num
          have hpos := (jaro_score_bounds s1 s2 hm).1
          rw [hsz] at hj
          linarith
        have hcp : common_pre (⟨c :: s1.data⟩ : String).data (⟨c :: s2.data⟩ : String).data
            = common_pre s1.data s2.data + 1 := by
          show common_pre (c :: s1.data) (c :: s2.data) = _
          simp [common_pre]
        simp only [jaro_winkler, if_neg h12, if_neg hm, if_neg h12', if_neg hm', hcp]
        obtain ⟨hp1, hl1⟩ := jaro_score_bounds s1 s2 hm
        obtain ⟨hp2, hl2⟩ := jaro_score_bounds _ _ hm'
        set n := common_pre s1.data s2.data with hn
        set J1 := jaro_score s1 s2 with hJ1
        set J2 := jaro_score ⟨c :: s1.data⟩ ⟨c :: s2.data⟩ with hJ2
        have hq12 : ((n : ℚ) ⊓ 4) ≤ (((n + 1 : Nat) : ℚ) ⊓ 4) :=
          min_le_min (by exact_mod_cast Nat.le_succ n) (le_refl 4)
        have hq2le : (((n + 1 : Nat) : ℚ) ⊓ 4) ≤ 4 := min_le_right _ _
        have hq10 : (0:ℚ) ≤ ((n : ℚ) ⊓ 4) := le_min (by positivity) (by norm_num)
        have hq1le : ((n : ℚ) ⊓ 4) ≤ 4 := min_le_right _ _
        have stepA : J1 + ((n : ℚ) ⊓ 4) * (1/10) * (1 - J1) ≤
            J2 + ((n : ℚ) ⊓ 4) * (1/10) * (1 - J2) := by
          nlinarith [mul_nonneg (sub_nonneg.mpr hj)
            (show (0:ℚ) ≤ 1 - ((n : ℚ) ⊓ 4) * (1/10) by linarith)]
        have stepB : J2 + ((n : ℚ) ⊓ 4) * (1/10) * (1 - J2) ≤
            J2 + (((n + 1 : Nat) : ℚ) ⊓ 4) * (1/10) * (1 - J2) := by
          nlinarith [mul_nonneg (sub_nonneg.mpr hq12)
            (show (0:ℚ) ≤ (1/10) * (1 - J2) by nlinarith)]
        linarith

/-- Witness for the amended C9. -/
theorem C9_jaro_winkler_monotone_witness :
    jaro_score "a" "b" ≤ jaro_score "xa" "xb" ∧
    jaro_winkler "a" "b" ≤ jaro_winkler "xa" "xb" := by
  have hbase : jaro_score "a" "b" ≤ jaro_score "xa" "xb" := by
    simp [jaro_score, jw_matches, jw_flags, jwLoop, findJ, matchDist, jw_trans_num,
      matchedChars, List.range', List.find?]
    norm_num
  have heq1 : (⟨'x' :: ("a" : String).data⟩ : String) = "xa" := rfl
  have heq2 : (⟨'x' :: ("b" : String).data⟩ : String) = "xb" := rfl
  refine ⟨hbase, ?_⟩
  have h2 := C9_jaro_winkler_monotone.2 "a" "b" 'x' (by rw [heq1, heq2]; exact hbase)
  rw [heq1, heq2] at h2
  exact h2

end Explosion

